import Mathlib

/-
Verification of the SongSeeker repository's string heuristics and player
logic: the Plex mapping generator (tools/generate-plex-mapping.js), the
web app (app.js), the player manager (player-manager.js) and the Plex
player (plex-player.js).  JavaScript strings are modelled as Lean
`String`/`List Char`, JS numbers appearing in the snippet computation as
`ℚ`, and JS `undefined`/`null` as `Option`.
-/

/-- Characters the model treats as JS line terminators (LF, CR, LS, PS);
JS regex `.` matches any character except these. -/
def isLineTerm (c : Char) : Bool :=
  c = '\n' || c = '\r' || c = ' ' || c = ' '

/-- Characters the model treats as JS whitespace for `String.prototype.trim`
(space, tab, LF, CR, VT, FF, NBSP, LS, PS, BOM). -/
def jsWhite (c : Char) : Bool :=
  c = ' ' || c = '\t' || c = '\n' || c = '\r' || c = '\x0b' || c = '\x0c' ||
  c = ' ' || c = ' ' || c = ' ' || c = '﻿'

/-- Model of `String.prototype.trim` on character lists. -/
def jsTrimChars (cs : List Char) : List Char :=
  ((cs.dropWhile jsWhite).reverse.dropWhile jsWhite).reverse

def strOf (cs : List Char) : String := String.mk cs

/-- Model of `String.prototype.trim`. -/
def jsTrim (s : String) : String := strOf (jsTrimChars s.data)

/-- Model of `String.prototype.toLowerCase` (ASCII case folding). -/
def jsToLower (s : String) : String := strOf (s.data.map Char.toLower)

/-- `sub` occurs at the start of `cs`. -/
def prefixOf : List Char → List Char → Bool
  | [], _ => true
  | _ :: _, [] => false
  | a :: as, b :: bs => a = b && prefixOf as bs

/-- `sub` occurs somewhere in `cs`. -/
def subOf (sub : List Char) : List Char → Bool
  | [] => sub.isEmpty
  | c :: t => prefixOf sub (c :: t) || subOf sub t

/-- Model of `s.includes(sub)` for JS strings. -/
def jsIncludes (s sub : String) : Bool := subOf sub.data s.data

/-- Model of `String.prototype.split('\n')`. -/
def splitOnChar (sep : Char) : List Char → List (List Char)
  | [] => [[]]
  | c :: cs =>
    if c = sep then [] :: splitOnChar sep cs
    else
      match splitOnChar sep cs with
      | [] => [[c]]
      | f :: rest => (c :: f) :: rest

def jsSplitNl (s : String) : List String := (splitOnChar '\n' s.data).map strOf

/-- Model of `.replace(/^"(.*)"$/, '$1')`: strip one layer of wrapping
double quotes; `.*` cannot cross a line terminator and without the `m`
flag `^`/`$` anchor at the ends of the whole string. -/
def stripWrap (cs : List Char) : List Char :=
  if cs.length ≥ 2 ∧ cs.head? = some '"' ∧ cs.getLast? = some '"' ∧
      (∀ c ∈ (cs.drop 1).dropLast, isLineTerm c = false) then
    (cs.drop 1).dropLast
  else cs

/-- A pushed CSV field: `line.substring(..).trim().replace(/^"(.*)"$/, '$1')`. -/
def processField (cs : List Char) : String := strOf (stripWrap (jsTrimChars cs))

/-- JS object modelled as its assignment history; a later binding of the
same key overwrites an earlier one. -/
def objGet {α : Type} : List (String × α) → String → Option α
  | [], _ => none
  | (k', v) :: rest, k =>
    match objGet rest k with
    | some v' => some v'
    | none => if k' = k then some v else none

def objHasKey {α : Type} (l : List (String × α)) (k : String) : Bool :=
  l.any (fun p => p.1 = k)

namespace Gen

/-- The field-splitting loop of `parseCSV` in tools/generate-plex-mapping.js
(lines 110-123): walk the line, toggling `inQuotes` on an unescaped `"`,
and push the processed field at every unquoted comma and at the end.
`prev` is the previously scanned character of the original line
(`line[i-1]`, `none` at position 0). -/
def splitFields : List Char → Bool → Option Char → List Char → List String → List String
  | [], _, _, cur, acc => acc ++ [processField cur]
  | c :: rest, inQ, prev, cur, acc =>
    if c = '"' ∧ prev ≠ some '\\' then
      splitFields rest (!inQ) (some c) (cur ++ [c]) acc
    else if c = ',' ∧ inQ = false then
      splitFields rest inQ (some c) [] (acc ++ [processField cur])
    else
      splitFields rest inQ (some c) (cur ++ [c]) acc

/-- One line of the generator's `parseCSV`. -/
def parseLine (line : String) : List String := splitFields line.data false none [] []

/-- `parseCSV` of tools/generate-plex-mapping.js (lines 108-125): split on
newlines, drop blank lines (`filter(line => line.trim())`), parse each. -/
def parseCSV (text : String) : List (List String) :=
  ((jsSplitNl text).filter (fun l => !(jsTrim l).isEmpty)).map parseLine

/-- `"feat."` occurs case-insensitively at the head of the list
(the `/feat\./i` part of the artist cleanup regex). -/
def featAt : List Char → Bool
  | f :: e :: a :: t :: d :: _ =>
    f.toLower = 'f' && e.toLower = 'e' && a.toLower = 'a' && t.toLower = 't' && d = '.'
  | _ => false

/-- Model of `artist.replace(/feat\..*/i, '')`: delete from the first
case-insensitive `feat.` through the end of that line (`.*` cannot cross a
line terminator; no `g` flag, so only the first match is removed). -/
def removeFeatRest : List Char → List Char
  | [] => []
  | c :: cs =>
    if featAt (c :: cs) then (cs.drop 4).dropWhile (fun x => !(isLineTerm x))
    else c :: removeFeatRest cs

/-- Model of `.replace(/,.*/, '')`: delete from the first comma through the
end of that line. -/
def removeCommaRest : List Char → List Char
  | [] => []
  | c :: cs =>
    if c = ',' then cs.dropWhile (fun x => !(isLineTerm x))
    else c :: removeCommaRest cs

/-- Index of the last occurrence of `target`. -/
def lastIdxOf (target : Char) : List Char → Option Nat
  | [] => none
  | c :: cs =>
    match lastIdxOf target cs with
    | some j => some (j + 1)
    | none => if c = target then some 0 else none

/-- One step of `.replace(/\(.*\)/g, '')` (and the `[...]` twin): a match
starts at the leftmost `op` whose line still holds a `cl` further on, and
greedily extends to the last such `cl` on that line; the match is deleted
and scanning resumes after it.  `fuel` bounds the recursion by the list
length. -/
def removeDelimAux (op cl : Char) : Nat → List Char → List Char
  | 0, cs => cs
  | fuel + 1, [] => (fun _ => []) fuel
  | fuel + 1, c :: cs =>
    if c = op then
      match lastIdxOf cl (cs.takeWhile (fun x => !(isLineTerm x))) with
      | some j => removeDelimAux op cl fuel (cs.drop (j + 1))
      | none => c :: removeDelimAux op cl fuel cs
    else c :: removeDelimAux op cl fuel cs

/-- Model of `title.replace(/\(.*\)/g, '')` for the pair `op`, `cl`. -/
def removeDelim (op cl : Char) (cs : List Char) : List Char :=
  removeDelimAux op cl cs.length cs

/-- `cleanArtist` in `searchPlex` (generate-plex-mapping.js line 164):
`artist.replace(/feat\..*/i, '').replace(/,.*/, '').trim()`. -/
def cleanArtist (artist : String) : String :=
  strOf (jsTrimChars (removeCommaRest (removeFeatRest artist.data)))

/-- `cleanTitle` in `searchPlex` (line 165):
`title.replace(/\(.*\)/g, '').replace(/\[.*\]/g, '').trim()`. -/
def cleanTitle (title : String) : String :=
  strOf (jsTrimChars (removeDelim '[' ']' (removeDelim '(' ')' title.data)))

/-- The three search queries of `searchPlex` (lines 169-173), in order. -/
def searchQueries (artist title : String) : List String :=
  [cleanTitle title, cleanArtist artist ++ " " ++ cleanTitle title, cleanArtist artist]

/-- A track entry of a Plex `/search` response, with exactly the fields
`searchPlex` reads; absent JSON fields are `none`. -/
structure PTrack where
  ratingKey : Option String
  title : Option String
  grandparentTitle : Option String
  originalTitle : Option String
  parentTitle : Option String
  parentYear : Option Int
  year : Option Int
  duration : Option Int
  partKey : Option String
  deriving DecidableEq

/-- The `bestMatch` object built at lines 222-230, with exactly its seven
fields. -/
structure MTrack where
  ratingKey : Option String
  title : Option String
  artist : Option String
  album : Option String
  year : Option Int
  duration : Option Int
  partKey : Option String
  deriving DecidableEq

/-- JS `a || b` on possibly-absent strings (`""` and `undefined` are falsy). -/
def jsOrS (a b : Option String) : Option String :=
  match a with
  | some s => if s = "" then b else some s
  | none => b

/-- JS `a || b` on possibly-absent numbers (`0` and `undefined` are falsy). -/
def jsOrI (a b : Option Int) : Option Int :=
  match a with
  | some y => if y = 0 then b else some y
  | none => b

/-- `const trackYear = track.parentYear || track.year` (line 200). -/
def trackYearOf (t : PTrack) : Option Int := jsOrI t.parentYear t.year

/-- `(trackYear || 0)` as used in the year difference (line 213). -/
def yearNumOf (t : PTrack) : Int := (trackYearOf t).getD 0

/-- `Math.abs((trackYear || 0) - targetYear)`; `none` models the `NaN`
produced when `parseInt(expectedYear)` failed. -/
def yearDiffOf (targetYear : Option Int) (t : PTrack) : Option Nat :=
  targetYear.map (fun ty => (yearNumOf t - ty).natAbs)

/-- The fuzzy title/artist test of lines 198-212: lowercased containment in
either direction, with `trackArtist = grandparentTitle || originalTitle || ''`. -/
def fuzzyMatch (cleanA cleanT : String) (t : PTrack) : Bool :=
  let trackTitle := jsToLower (t.title.getD "")
  let trackArtist := jsToLower ((jsOrS t.grandparentTitle t.originalTitle).getD "")
  (jsIncludes trackTitle (jsToLower cleanT) || jsIncludes (jsToLower cleanT) trackTitle) &&
  (jsIncludes trackArtist (jsToLower cleanA) || jsIncludes (jsToLower cleanA) trackArtist)

/-- The `bestMatch` object literal of lines 222-230. -/
def mkMatch (t : PTrack) : MTrack :=
  { ratingKey := t.ratingKey
    title := t.title
    artist := jsOrS t.grandparentTitle t.originalTitle
    album := t.parentTitle
    year := trackYearOf t
    duration := t.duration
    partKey := t.partKey }

/-- `yearDiff < bestYearDiff` where `bestYearDiff` starts as `Infinity`
(modelled `none`) and `yearDiff` may be `NaN` (`none`, all comparisons
false). -/
def yearLt (d best : Option Nat) : Bool :=
  match d, best with
  | some _, none => true
  | some d', some b => d' < b
  | none, _ => false

/-- The inner `for (const track of tracks)` loop of lines 197-241, threading
`(bestMatch, bestYearDiff)`; `Sum.inl` is the early `return bestMatch` on an
exact year match, `Sum.inr` the state carried to the next query. -/
def scanTracks (cleanA cleanT : String) (targetYear : Option Int) :
    List PTrack → Option MTrack × Option Nat → MTrack ⊕ (Option MTrack × Option Nat)
  | [], st => Sum.inr st
  | t :: ts, (best, bestD) =>
    if fuzzyMatch cleanA cleanT t then
      let d := yearDiffOf targetYear t
      if yearLt d bestD then
        if d = some 0 then Sum.inl (mkMatch t)
        else scanTracks cleanA cleanT targetYear ts (some (mkMatch t), d)
      else scanTracks cleanA cleanT targetYear ts (best, bestD)
    else scanTracks cleanA cleanT targetYear ts (best, bestD)

/-- The outer `for (const query of searchQueries)` loop plus the final
`if (bestMatch && bestYearDiff === 0)` of lines 178-260.  `tracksOf`
abstracts the Plex server: the track list of each query's response (errors
and empty `MediaContainer`s collapse to `[]`, which the loop just skips). -/
def scanQueries (cleanA cleanT : String) (targetYear : Option Int)
    (tracksOf : String → List PTrack) : List String → Option MTrack × Option Nat → Option MTrack
  | [], (best, bestD) => if best.isSome && bestD = some 0 then best else none
  | q :: qs, st =>
    match scanTracks cleanA cleanT targetYear (tracksOf q) st with
    | Sum.inl m => some m
    | Sum.inr st' => scanQueries cleanA cleanT targetYear tracksOf qs st'

/-- `searchPlex` (lines 162-261).  `targetYear` stands for
`parseInt(expectedYear, 10)` (`none` = `NaN`); `tracksOf` for the Plex
search responses. -/
def searchPlex (artist title : String) (targetYear : Option Int)
    (tracksOf : String → List PTrack) : Option MTrack :=
  scanQueries (cleanArtist artist) (cleanTitle title) targetYear tracksOf
    (searchQueries artist title) (none, none)

/-- `headers.indexOf(name)` (lines 295-299); `none` models `-1`. -/
def jsIndexOf : List String → String → Option Nat
  | [], _ => none
  | x :: xs, s => if x = s then some 0 else (jsIndexOf xs s).map (· + 1)

/-- `row[cardIndex]` used as an object key: an out-of-range access is
`undefined`, which JS coerces to the property key `"undefined"`. -/
def cardOf (row : List String) (ci : Nat) : String := row.getD ci "undefined"

/-- `if (config.limit > 0) songs = songs.slice(0, config.limit)` (lines 349-351). -/
def applyLimit {α : Type} (songs : List α) (limit : Nat) : List α :=
  if 0 < limit then songs.take limit else songs

/-- The per-song loop of `main` (lines 356-391): for every processed row, in
order, call `searchPlex` and assign `mapping[cardId]` to the result (the
track object) or `null`.  Returns the rows passed to `searchPlex` and the
assignment history of `mapping`.  `search` abstracts the awaited
`searchPlex(config.server, config.token, artist, title, year)` call, whose
value depends on the external Plex server. -/
def genLoop (ci : Nat) (search : List String → Option MTrack) :
    List (List String) → List (List String) × List (String × Option MTrack)
  | [] => ([], [])
  | r :: rs =>
    let res := search r
    let rest := genLoop ci search rs
    (r :: rest.1, (cardOf r ci, res) :: rest.2)

end Gen

namespace App

/-- The field-splitting loop of `parseCSV` in app.js (lines 276-289),
textually identical to the generator's. -/
def splitFields : List Char → Bool → Option Char → List Char → List String → List String
  | [], _, _, cur, acc => acc ++ [processField cur]
  | c :: rest, inQ, prev, cur, acc =>
    if c = '"' ∧ prev ≠ some '\\' then
      splitFields rest (!inQ) (some c) (cur ++ [c]) acc
    else if c = ',' ∧ inQ = false then
      splitFields rest inQ (some c) [] (acc ++ [processField cur])
    else
      splitFields rest inQ (some c) (cur ++ [c]) acc

/-- One line of the app's `parseCSV`. -/
def parseLine (line : String) : List String := splitFields line.data false none [] []

/-- `parseCSV` of app.js (lines 274-291): split on newlines and parse every
line; unlike the generator there is no blank-line filter. -/
def parseCSV (text : String) : List (List String) :=
  (jsSplitNl text).map parseLine

/-- A track entry of a loaded plex-mapping JSON file, restricted to the two
fields `lookupPlexTrackByRatingKey` reads (`ratingKey`,
`alternativeKeys`); both may be absent. -/
structure ATrack where
  ratingKey : Option String
  alternativeKeys : Option (List String)
  deriving DecidableEq

/-- `mapping[key] && mapping[key].ratingKey === ratingKey` for one entry
(a `null` entry is falsy and skipped). -/
def entryKeyMatch (k : String) (e : Option ATrack) : Bool :=
  match e with
  | some t => t.ratingKey = some k
  | none => false

/-- `track && track.alternativeKeys && track.alternativeKeys.includes(ratingKey)`
for one entry. -/
def entryAltMatch (k : String) (e : Option ATrack) : Bool :=
  match e with
  | some t =>
    match t.alternativeKeys with
    | some ks => decide (k ∈ ks)
    | none => false
  | none => false

/-- The three checks of `lookupPlexTrackByRatingKey` inside one language's
mapping (app.js lines 860-879): the direct `mapping[ratingKey]` probe, then
a scan of every entry's `ratingKey`, then a scan of every entry's
`alternativeKeys`.  `Object.keys` iteration is modelled by the binding
order of the association list. -/
def lookupInLang (mapping : List (String × Option ATrack)) (k : String) : Option ATrack :=
  let direct : Option ATrack :=
    match objGet mapping k with
    | some (some t) => if t.ratingKey = some k then some t else none
    | _ => none
  match direct with
  | some t => some t
  | none =>
    match mapping.find? (fun p => entryKeyMatch k p.2) with
    | some p => p.2
    | none =>
      match mapping.find? (fun p => entryAltMatch k p.2) with
      | some p => p.2
      | none => none

/-- `lookupPlexTrackByRatingKey` (app.js lines 857-882): walk the loaded
mappings (`plexMappingCache`) in order and return `{ track, game }` from the
first language whose mapping matches, else `null`. -/
def lookupPlexTrackByRatingKey
    (cache : List (String × List (String × Option ATrack))) (k : String) :
    Option (ATrack × String) :=
  match cache with
  | [] => none
  | (lang, mapping) :: rest =>
    match lookupInLang mapping k with
    | some t => some (t, lang)
    | none => lookupPlexTrackByRatingKey rest k

end App

namespace Player

/-- The snippet computation of `PlayerManager.playAtRandomStartTime`
(player-manager.js lines 245-276): given the video duration, the custom
start time, the requested playback duration and the value of
`Math.random()`, return the `(startTime, endTime)` the function seeks to
and schedules the stop timer from.  JS numbers are modelled as `ℚ`. -/
def playAtRandomStartTime (videoDuration currentStartTime playbackDuration r : ℚ) : ℚ × ℚ :=
  let minStartTime := max currentStartTime (videoDuration * (1 / 10))
  let maxEndTime := videoDuration * (9 / 10)
  let startTime1 :=
    if playbackDuration > maxEndTime then max minStartTime (maxEndTime - playbackDuration)
    else currentStartTime
  let endTime1 := if playbackDuration > maxEndTime then maxEndTime else playbackDuration
  if startTime1 ≤ minStartTime then
    (minStartTime + r * (maxEndTime - minStartTime - playbackDuration),
     minStartTime + r * (maxEndTime - minStartTime - playbackDuration) + playbackDuration)
  else (startTime1, endTime1)

/-- The identical snippet computation of the YouTube path of
`playVideoAtRandomStartTime` (app.js lines 486-533). -/
def playVideoAtRandomStartTime (videoDuration currentStartTime playbackDuration r : ℚ) : ℚ × ℚ :=
  let minStartTime := max currentStartTime (videoDuration * (1 / 10))
  let maxEndTime := videoDuration * (9 / 10)
  let startTime1 :=
    if playbackDuration > maxEndTime then max minStartTime (maxEndTime - playbackDuration)
    else currentStartTime
  let endTime1 := if playbackDuration > maxEndTime then maxEndTime else playbackDuration
  if startTime1 ≤ minStartTime then
    (minStartTime + r * (maxEndTime - minStartTime - playbackDuration),
     minStartTime + r * (maxEndTime - minStartTime - playbackDuration) + playbackDuration)
  else (startTime1, endTime1)

/-- The method names defined by `class PlexPlayer` (plex-player.js). -/
def plexPlayerMethods : List String :=
  ["constructor", "_initAudioElement", "_notifyStateChange", "configure",
   "isConfigured", "_buildStreamUrl", "cueTrack", "_fetchTrackDetails",
   "playSong", "pauseSong", "stopSong", "seekTo", "getCurrentTime",
   "getDuration", "setVolume", "unMute", "mute", "getSongData",
   "onStateChange", "setPlaybackTimer", "clearPlaybackTimer", "getPlayerState"]

/-- The method `PlayerManager.play` invokes on the active player
(player-manager.js line 124: `player.playVideo()`). -/
def playInvokes : String := "playVideo"

/-- The method `PlayerManager.pause` invokes on the active player
(line 134: `player.pauseVideo()`). -/
def pauseInvokes : String := "pauseVideo"

/-- The method `PlayerManager.stop` invokes on the Plex player
(line 151: `this.plexPlayer.pauseVideo()`). -/
def stopInvokesOnPlex : String := "pauseVideo"

/-- Whether a method name is defined on a `PlexPlayer` instance (a call to
any other name throws a `TypeError` and never reaches the audio element). -/
def plexRespondsTo (m : String) : Bool := plexPlayerMethods.contains m

end Player

namespace Spec

/-- Modelled from the claim's words: the artist with everything from
`feat.` onward removed (to the end of the whole string). -/
def cutFeatOnward : List Char → List Char
  | [] => []
  | c :: cs => if Gen.featAt (c :: cs) then [] else c :: cutFeatOnward cs

/-- Modelled from the claim's words: everything after the first comma
removed (the comma itself stays). -/
def cutAfterComma : List Char → List Char
  | [] => []
  | c :: cs => if c = ',' then [c] else c :: cutAfterComma cs

/-- Everything from the first comma onward removed (comma included); used
by the amended reading of the artist cleanup. -/
def cutCommaOnward : List Char → List Char
  | [] => []
  | c :: cs => if c = ',' then [] else c :: cutCommaOnward cs

/-- Index of the first occurrence of `target`. -/
def firstIdxOf (target : Char) : List Char → Option Nat
  | [] => none
  | c :: cs =>
    if c = target then some 0
    else (firstIdxOf target cs).map (· + 1)

/-- Modelled from the claim's words: remove every `op...cl` segment, each
segment ending at the first `cl` after its `op`. -/
def removeSegmentsAux (op cl : Char) : Nat → List Char → List Char
  | 0, cs => cs
  | fuel + 1, [] => (fun _ => []) fuel
  | fuel + 1, c :: cs =>
    if c = op then
      match firstIdxOf cl cs with
      | some j => removeSegmentsAux op cl fuel (cs.drop (j + 1))
      | none => c :: removeSegmentsAux op cl fuel cs
    else c :: removeSegmentsAux op cl fuel cs

def removeSegments (op cl : Char) (cs : List Char) : List Char :=
  removeSegmentsAux op cl cs.length cs

/-- The greedy span removal the amended claim describes: each removal runs
from an `op` to the last `cl` of the remaining list (no line-terminator
restriction, which matches the code on terminator-free input). -/
def removeGreedyAux (op cl : Char) : Nat → List Char → List Char
  | 0, cs => cs
  | fuel + 1, [] => (fun _ => []) fuel
  | fuel + 1, c :: cs =>
    if c = op then
      match Gen.lastIdxOf cl cs with
      | some j => removeGreedyAux op cl fuel (cs.drop (j + 1))
      | none => c :: removeGreedyAux op cl fuel cs
    else c :: removeGreedyAux op cl fuel cs

def removeGreedy (op cl : Char) (cs : List Char) : List Char :=
  removeGreedyAux op cl cs.length cs

/-- The cleaned artist as claim C6 words it. -/
def claimCleanArtist (artist : String) : String :=
  strOf (jsTrimChars (cutAfterComma (cutFeatOnward artist.data)))

/-- The cleaned title as claim C6 words it: every parenthesized and every
bracketed segment removed, then trimmed. -/
def claimCleanTitle (title : String) : String :=
  strOf (jsTrimChars (removeSegments '[' ']' (removeSegments '(' ')' title.data)))

/-- The three queries claim C6 asserts are tried, built from its cleaned
artist and title. -/
def claimQueries (artist title : String) : List String :=
  [claimCleanTitle title,
   claimCleanArtist artist ++ " " ++ claimCleanTitle title,
   claimCleanArtist artist]

/-- The cleaned artist of the amended claim: everything from the first
case-insensitive `feat.` onward removed, then everything from the first
comma onward removed, then trimmed. -/
def amendedCleanArtist (artist : String) : String :=
  strOf (jsTrimChars (cutCommaOnward (cutFeatOnward artist.data)))

/-- The cleaned title of the amended claim: greedy first-`(`-to-last-`)`
spans removed, then likewise for brackets, then trimmed. -/
def amendedCleanTitle (title : String) : String :=
  strOf (jsTrimChars (removeGreedy '[' ']' (removeGreedy '(' ')' title.data)))

/-- The queries of the amended claim. -/
def amendedQueries (artist title : String) : List String :=
  [amendedCleanTitle title,
   amendedCleanArtist artist ++ " " ++ amendedCleanTitle title,
   amendedCleanArtist artist]

/-- Modelled from claim C7's words: a candidate counts as a match when the
lowercased track title and the lowercased cleaned title contain one
another in either direction, and likewise for the track artist
(`grandparentTitle`, else `originalTitle`, else the empty string) and the
cleaned artist. -/
def claimFuzzy (cleanA cleanT : String) (t : Gen.PTrack) : Bool :=
  let trackTitle := jsToLower (t.title.getD "")
  let trackArtist := jsToLower ((Gen.jsOrS t.grandparentTitle t.originalTitle).getD "")
  (jsIncludes trackTitle (jsToLower cleanT) || jsIncludes (jsToLower cleanT) trackTitle) &&
  (jsIncludes trackArtist (jsToLower cleanA) || jsIncludes (jsToLower cleanA) trackArtist)

end Spec

namespace Ex

/-- A concrete Plex search response track used to exercise `searchPlex`. -/
def wTrack : Gen.PTrack :=
  { ratingKey := some "100", title := some "Waterloo", grandparentTitle := some "ABBA",
    originalTitle := none, parentTitle := some "Waterloo LP", parentYear := some 1974,
    year := none, duration := some 200000, partKey := some "/library/parts/1/2/f.mp3" }

/-- A concrete Plex server: the title-only query finds `wTrack`. -/
def wTracksOf : String → List Gen.PTrack :=
  fun q => if q = "Waterloo" then [wTrack] else []

/-- A mapping entry as it would sit in a pre-existing mapping file. -/
def track0 : Gen.MTrack :=
  { ratingKey := some "1000", title := some "Old Title", artist := some "Old Artist",
    album := none, year := some 1990, duration := none, partKey := none }

/-- A different track, as returned by a fresh Plex search. -/
def track1 : Gen.MTrack :=
  { ratingKey := some "2000", title := some "New Title", artist := some "New Artist",
    album := none, year := some 1990, duration := none, partKey := none }

/-- A data row for card 7. -/
def row7 : List String := ["7", "Artist A", "Title T", "1999"]

/-- A pre-existing mapping in which card 7 is already matched (to `track0`). -/
def prior : List (String × Option Gen.MTrack) := [("7", some track0)]

/-- A search oracle whose answer differs from the pre-existing entry. -/
def search4 : List String → Option Gen.MTrack := fun _ => some track1

/-- A mapping track for the rating-key lookup. -/
def aTrack : App.ATrack := { ratingKey := some "42", alternativeKeys := none }

/-- A loaded mapping cache containing `aTrack` under card key "1". -/
def cache5 : List (String × List (String × Option App.ATrack)) :=
  [("de", [("1", some aTrack)])]

end Ex

theorem splitFields_app_eq_gen :
    ∀ (cs : List Char) (inQ : Bool) (prev : Option Char) (cur : List Char) (acc : List String),
      App.splitFields cs inQ prev cur acc = Gen.splitFields cs inQ prev cur acc := by
  intro cs
  induction cs with
  | nil => intro inQ prev cur acc; rfl
  | cons c rest ih =>
    intro inQ prev cur acc
    simp only [App.splitFields, Gen.splitFields]
    split_ifs <;> apply ih

theorem parseLine_app_eq_gen : ∀ line : String, App.parseLine line = Gen.parseLine line := by
  intro line
  exact splitFields_app_eq_gen line.data false none [] []

theorem genLoop_spec (ci : Nat) (search : List String → Option Gen.MTrack) :
    ∀ rows : List (List String),
      Gen.genLoop ci search rows = (rows, rows.map fun r => (Gen.cardOf r ci, search r)) := by
  intro rows
  induction rows with
  | nil => rfl
  | cons r rs ih => simp [Gen.genLoop, ih]

theorem objHasKey_pairs {β : Type} (f : List String → String) (g : List String → β) :
    ∀ (rows : List (List String)) (k : String),
      objHasKey (rows.map fun r => (f r, g r)) k = true ↔ k ∈ rows.map f := by
  intro rows k
  simp only [objHasKey, List.any_eq_true, List.mem_map, decide_eq_true_eq]
  constructor
  · rintro ⟨p, ⟨r, hr, rfl⟩, hpk⟩
    exact ⟨r, hr, hpk⟩
  · rintro ⟨r, hr, hfk⟩
    exact ⟨(f r, g r), ⟨r, hr, rfl⟩, hfk⟩

theorem objGet_pairs_none {β : Type} (f : List String → String) (g : List String → β) :
    ∀ (rows : List (List String)) (k : String),
      k ∉ rows.map f → objGet (rows.map fun r => (f r, g r)) k = none := by
  intro rows k
  induction rows with
  | nil => intro _; rfl
  | cons r rs ih =>
    intro h
    simp only [List.map_cons, List.mem_cons] at h
    push_neg at h
    simp only [List.map_cons, objGet, ih h.2]
    exact if_neg (fun hh => h.1 hh.symm)

theorem objGet_pairs_mem {β : Type} (f : List String → String) (g : List String → β) :
    ∀ (rows : List (List String)) (k : String),
      k ∈ rows.map f →
      ∃ r ∈ rows, f r = k ∧ objGet (rows.map fun r => (f r, g r)) k = some (g r) := by
  intro rows k
  induction rows with
  | nil => intro h; simp at h
  | cons r rs ih =>
    intro h
    by_cases hmem : k ∈ rs.map f
    · obtain ⟨r', hr', hfk, hget⟩ := ih hmem
      exact ⟨r', List.mem_cons_of_mem _ hr', hfk, by simp only [List.map_cons, objGet, hget]⟩
    · simp only [List.map_cons, List.mem_cons] at h
      have hfr : f r = k := by tauto
      refine ⟨r, List.mem_cons_self _ _, hfr, ?_⟩
      simp only [List.map_cons, objGet, objGet_pairs_none f g rs k hmem]
      rw [if_pos hfr]

/-- C3 (code_bug): with the Plex player active, `PlayerManager.play`,
`pause` and `stop` invoke `playVideo`/`pauseVideo` on the `PlexPlayer`
instance, but `PlexPlayer` defines no method of either name (its playback
methods are `playSong`, `pauseSong`, `stopSong`), so the calls raise
`TypeError` instead of reaching the audio element. -/
theorem c3_plex_routing_undefined :
    Player.plexRespondsTo Player.playInvokes = false ∧
    Player.plexRespondsTo Player.pauseInvokes = false ∧
    Player.plexRespondsTo Player.stopInvokesOnPlex = false ∧
    Player.plexRespondsTo "playSong" = true ∧
    Player.plexRespondsTo "pauseSong" = true ∧
    Player.plexRespondsTo "stopSong" = true := by decide

/-- C10 counterexample: on the input text consisting of a single newline,
the generator's `parseCSV` drops both blank lines and returns `[]`, while
the app's `parseCSV` returns two rows each holding one empty field. -/
theorem c10_counterexample : Gen.parseCSV "\n" ≠ App.parseCSV "\n" := by decide

/-- C10 (amended): the two `parseCSV` implementations agree on every text
whose lines are all non-blank (the implementations differ only in the
generator's blank-line filter). -/
theorem c10_amended :
    ∀ text : String, (∀ l ∈ jsSplitNl text, (jsTrim l).isEmpty = false) →
      Gen.parseCSV text = App.parseCSV text := by
  intro text h
  unfold Gen.parseCSV App.parseCSV
  rw [List.filter_eq_self.mpr (by intro l hl; simp [h l hl])]
  exact List.map_congr_left (fun l _ => (parseLine_app_eq_gen l).symm)

/-- C10 witness: a concrete two-line CSV on which the agreement theorem
applies. -/
theorem c10_witness : Gen.parseCSV "a,\"b, c\"\nd,e" = App.parseCSV "a,\"b, c\"\nd,e" :=
  c10_amended "a,\"b, c\"\nd,e" (by decide)

/-- C4 counterexample: card 7 is already matched (to `Ex.track0`) in a
pre-existing mapping, yet a run of the generator's song loop still passes
its row to `searchPlex` and overwrites the entry with this run's search
result `Ex.track1`, so already-matched songs are neither skipped nor
preserved (the node generator has no re-match flag and never reads an
existing mapping). -/
theorem c4_counterexample :
    objGet Ex.prior "7" = some (some Ex.track0) ∧
    (Gen.genLoop 0 Ex.search4 [Ex.row7]).1 = [Ex.row7] ∧
    objGet (Gen.genLoop 0 Ex.search4 [Ex.row7]).2 "7" = some (some Ex.track1) ∧
    Ex.track1 ≠ Ex.track0 := by decide

/-- C4 (amended): the generator is not incremental: on every run it passes
every processed data row (header dropped, limit applied) to `searchPlex`
and rebuilds the whole mapping from this run's search results alone,
regardless of any existing mapping file. -/
theorem c4_amended :
    ∀ (text : String) (limit : Nat) (search : List String → Option Gen.MTrack)
      (headers : List String) (rest : List (List String)) (ci ai ti : Nat),
      Gen.parseCSV text = headers :: rest →
      Gen.jsIndexOf headers "Card#" = some ci →
      Gen.jsIndexOf headers "Artist" = some ai →
      Gen.jsIndexOf headers "Title" = some ti →
      (Gen.genLoop ci search (Gen.applyLimit rest limit)).1 = Gen.applyLimit rest limit ∧
      (Gen.genLoop ci search (Gen.applyLimit rest limit)).2 =
        (Gen.applyLimit rest limit).map (fun r => (Gen.cardOf r ci, search r)) := by
  intro text limit search headers rest ci ai ti _ _ _ _
  rw [genLoop_spec]
  exact ⟨rfl, rfl⟩

/-- C4 witness: the amended theorem applied to a concrete one-row CSV. -/
theorem c4_witness :
    (Gen.genLoop 0 Ex.search4 (Gen.applyLimit [Ex.row7] 0)).1 = Gen.applyLimit [Ex.row7] 0 ∧
    (Gen.genLoop 0 Ex.search4 (Gen.applyLimit [Ex.row7] 0)).2 =
      (Gen.applyLimit [Ex.row7] 0).map (fun r => (Gen.cardOf r 0, Ex.search4 r)) :=
  c4_amended "Card#,Artist,Title,Year\n7,Artist A,Title T,1999" 0 Ex.search4
    ["Card#", "Artist", "Title", "Year"] [Ex.row7] 0 1 2
    (by decide) (by decide) (by decide) (by decide)

/-- C2 counterexample: with video duration 100, custom start 0, playback
duration 100 and random draw 0 (all admissible under the claim), the
computed snippet is `(10, 110)`: its end time exceeds 90% of the duration,
so the claimed bounds fail. -/
theorem c2_counterexample :
    (0:ℚ) < 100 ∧ (0:ℚ) ≤ 0 ∧ (0:ℚ) < 100 ∧ (0:ℚ) ≤ 0 ∧ (0:ℚ) < 1 ∧
    Player.playAtRandomStartTime 100 0 100 0 = (10, 110) ∧
    ¬ ((110:ℚ) ≤ 100 * (9 / 10)) := by
  refine ⟨by norm_num, le_refl 0, by norm_num, le_refl 0, by norm_num, ?_, by norm_num⟩
  norm_num [Player.playAtRandomStartTime]

/-- C2 (amended): whenever the playback duration additionally fits the
window, i.e. `p ≤ (9/10)·D − max(s, (1/10)·D)`, the snippet of
`playAtRandomStartTime` starts no earlier than 10% of the duration, ends no
later than 90% of it, ends strictly after it starts, and the YouTube twin
`playVideoAtRandomStartTime` computes the identical snippet. -/
theorem c2_amended :
    ∀ D s p r : ℚ, 0 < D → 0 ≤ s → 0 < p → 0 ≤ r → r < 1 →
      p ≤ D * (9 / 10) - max s (D * (1 / 10)) →
      (D * (1 / 10) ≤ (Player.playAtRandomStartTime D s p r).1 ∧
       (Player.playAtRandomStartTime D s p r).2 ≤ D * (9 / 10) ∧
       (Player.playAtRandomStartTime D s p r).1 < (Player.playAtRandomStartTime D s p r).2) ∧
      Player.playAtRandomStartTime D s p r = Player.playVideoAtRandomStartTime D s p r := by
  intro D s p r hD hs hp hr hr1 hple
  have hm : D * (1 / 10) ≤ max s (D * (1 / 10)) := le_max_right _ _
  have hms : s ≤ max s (D * (1 / 10)) := le_max_left _ _
  have hrange : 0 ≤ D * (9 / 10) - max s (D * (1 / 10)) - p := by linarith
  have hnotgt : ¬ (p > D * (9 / 10)) := by
    have : (0:ℚ) < D * (1 / 10) := by linarith
    linarith
  have hr0 : 0 ≤ r * (D * (9 / 10) - max s (D * (1 / 10)) - p) := mul_nonneg hr hrange
  have hr2 : r * (D * (9 / 10) - max s (D * (1 / 10)) - p) ≤
      D * (9 / 10) - max s (D * (1 / 10)) - p := mul_le_of_le_one_left hrange hr1.le
  refine ⟨?_, rfl⟩
  simp only [Player.playAtRandomStartTime, if_neg hnotgt, if_pos hms]
  refine ⟨by linarith, by linarith, by linarith⟩

/-- C2 witness: the amended theorem at duration 100, custom start 0,
playback duration 30 and random draw 1/2. -/
theorem c2_witness :
    ((100:ℚ) * (1 / 10) ≤ (Player.playAtRandomStartTime 100 0 30 (1/2)).1 ∧
     (Player.playAtRandomStartTime 100 0 30 (1/2)).2 ≤ 100 * (9 / 10) ∧
     (Player.playAtRandomStartTime 100 0 30 (1/2)).1 <
       (Player.playAtRandomStartTime 100 0 30 (1/2)).2) ∧
    Player.playAtRandomStartTime 100 0 30 (1/2) =
      Player.playVideoAtRandomStartTime 100 0 30 (1/2) :=
  c2_amended 100 0 30 (1/2) (by norm_num) (le_refl 0) (by norm_num) (by norm_num)
    (by norm_num) (by rw [max_eq_right (by norm_num : (0:ℚ) ≤ 100 * (1 / 10))]; norm_num)

/-- C8: for every input CSV text (with the required header columns
present), the generated mapping's keys are exactly the Card# values of the
processed data rows, and each key holds the `searchPlex` result of a row
bearing that card id: the seven-field track object, or `null` when the
search found no match. -/
theorem c8_mapping_shape :
    ∀ (text : String) (limit : Nat) (search : List String → Option Gen.MTrack)
      (headers : List String) (rest : List (List String)) (ci ai ti : Nat),
      Gen.parseCSV text = headers :: rest →
      Gen.jsIndexOf headers "Card#" = some ci →
      Gen.jsIndexOf headers "Artist" = some ai →
      Gen.jsIndexOf headers "Title" = some ti →
      (∀ k, objHasKey (Gen.genLoop ci search (Gen.applyLimit rest limit)).2 k = true ↔
        k ∈ (Gen.applyLimit rest limit).map (fun r => Gen.cardOf r ci)) ∧
      (∀ k ∈ (Gen.applyLimit rest limit).map (fun r => Gen.cardOf r ci),
        ∃ r ∈ Gen.applyLimit rest limit, Gen.cardOf r ci = k ∧
          objGet (Gen.genLoop ci search (Gen.applyLimit rest limit)).2 k = some (search r)) := by
  intro text limit search headers rest ci ai ti _ _ _ _
  rw [genLoop_spec]
  exact ⟨fun k => objHasKey_pairs _ _ _ k,
    fun k hk => objGet_pairs_mem (fun r => Gen.cardOf r ci) search _ k hk⟩

/-- C8 witness: the mapping-shape theorem at a concrete one-row CSV. -/
theorem c8_witness :
    (∀ k, objHasKey (Gen.genLoop 0 Ex.search4 (Gen.applyLimit [Ex.row7] 0)).2 k = true ↔
      k ∈ (Gen.applyLimit [Ex.row7] 0).map (fun r => Gen.cardOf r 0)) ∧
    (∀ k ∈ (Gen.applyLimit [Ex.row7] 0).map (fun r => Gen.cardOf r 0),
      ∃ r ∈ Gen.applyLimit [Ex.row7] 0, Gen.cardOf r 0 = k ∧
        objGet (Gen.genLoop 0 Ex.search4 (Gen.applyLimit [Ex.row7] 0)).2 k = some (Ex.search4 r)) :=
  c8_mapping_shape "Card#,Artist,Title,Year\n7,Artist A,Title T,1999" 0 Ex.search4
    ["Card#", "Artist", "Title", "Year"] [Ex.row7] 0 1 2
    (by decide) (by decide) (by decide) (by decide)

theorem objGet_mem {α : Type} :
    ∀ (l : List (String × α)) (k : String) (v : α), objGet l k = some v → (k, v) ∈ l := by
  intro l k v
  induction l with
  | nil => intro h; cases h
  | cons p rest ih =>
    intro h
    obtain ⟨k', v'⟩ := p
    simp only [objGet] at h
    cases hres : objGet rest k with
    | some v'' =>
      rw [hres] at h
      obtain rfl := Option.some.inj h
      exact List.mem_cons_of_mem _ (ih hres)
    | none =>
      rw [hres] at h
      by_cases hk : k' = k
      · rw [if_pos hk] at h
        obtain rfl := Option.some.inj h
        subst hk
        exact List.mem_cons_self _ _
      · rw [if_neg hk] at h
        cases h

theorem entryKeyMatch_eq_true (k : String) (e : Option App.ATrack) :
    App.entryKeyMatch k e = true ↔ ∃ t, e = some t ∧ t.ratingKey = some k := by
  cases e with
  | none => simp [App.entryKeyMatch]
  | some t => simp [App.entryKeyMatch]

theorem entryAltMatch_eq_true (k : String) (e : Option App.ATrack) :
    App.entryAltMatch k e = true ↔ ∃ t, e = some t ∧ k ∈ t.alternativeKeys.getD [] := by
  cases e with
  | none => simp [App.entryAltMatch]
  | some t =>
    cases halt : t.alternativeKeys with
    | none => simp [App.entryAltMatch, halt]
    | some ks => simp [App.entryAltMatch, halt]

theorem lookupInLang_some :
    ∀ (mp : List (String × Option App.ATrack)) (k : String) (t : App.ATrack),
      App.lookupInLang mp k = some t →
      (∃ key, (key, some t) ∈ mp) ∧
        (t.ratingKey = some k ∨ k ∈ t.alternativeKeys.getD []) := by
  intro mp k t h
  simp only [App.lookupInLang] at h
  split at h
  · case _ t' heq =>
    obtain rfl := Option.some.inj h
    split at heq
    · case _ u hu =>
      split at heq
      · case _ hrk =>
        obtain rfl := Option.some.inj heq
        exact ⟨⟨k, objGet_mem mp k _ hu⟩, Or.inl hrk⟩
      · cases heq
    · cases heq
  · case _ heq =>
    split at h
    · case _ p hf =>
      obtain ⟨pk, pv⟩ := p
      have hpred := List.find?_some hf
      obtain ⟨t', hpt, hrk⟩ := (entryKeyMatch_eq_true k pv).mp hpred
      subst hpt
      obtain rfl := Option.some.inj h
      exact ⟨⟨pk, List.mem_of_find?_eq_some hf⟩, Or.inl hrk⟩
    · case _ hf1 =>
      split at h
      · case _ p hf =>
        obtain ⟨pk, pv⟩ := p
        have hpred := List.find?_some hf
        obtain ⟨t', hpt, halt⟩ := (entryAltMatch_eq_true k pv).mp hpred
        subst hpt
        obtain rfl := Option.some.inj h
        exact ⟨⟨pk, List.mem_of_find?_eq_some hf⟩, Or.inr halt⟩
      · cases h

theorem lookupInLang_ne_none_of_match :
    ∀ (mp : List (String × Option App.ATrack)) (k key : String) (t : App.ATrack),
      (key, some t) ∈ mp →
      (t.ratingKey = some k ∨ k ∈ t.alternativeKeys.getD []) →
      App.lookupInLang mp k ≠ none := by
  intro mp k key t hmem hmatch h
  simp only [App.lookupInLang] at h
  split at h
  · cases h
  · split at h
    · case _ p hf =>
      have hpred := List.find?_some hf
      obtain ⟨t', hpt, _⟩ := (entryKeyMatch_eq_true k p.2).mp hpred
      rw [hpt] at h
      cases h
    · case _ hf1 =>
      split at h
      · case _ p hf =>
        have hpred := List.find?_some hf
        obtain ⟨t', hpt, _⟩ := (entryAltMatch_eq_true k p.2).mp hpred
        rw [hpt] at h
        cases h
      · case _ hf2 =>
        rcases hmatch with hrk | halt
        · have hfalse := List.find?_eq_none.mp hf1 (key, some t) hmem
          rw [entryKeyMatch_eq_true k (some t)] at hfalse
          push_neg at hfalse
          exact hfalse t rfl hrk
        · have hfalse := List.find?_eq_none.mp hf2 (key, some t) hmem
          rw [entryAltMatch_eq_true k (some t)] at hfalse
          push_neg at hfalse
          exact hfalse t rfl halt

theorem lookup_some_spec :
    ∀ (cache : List (String × List (String × Option App.ATrack))) (k : String)
      (t : App.ATrack) (lang : String),
      App.lookupPlexTrackByRatingKey cache k = some (t, lang) →
      (∃ mapping, (lang, mapping) ∈ cache ∧ ∃ key, (key, some t) ∈ mapping) ∧
        (t.ratingKey = some k ∨ k ∈ t.alternativeKeys.getD []) := by
  intro cache k t lang
  induction cache with
  | nil => intro h; cases h
  | cons entry rest ih =>
    intro h
    obtain ⟨lang', mp⟩ := entry
    simp only [App.lookupPlexTrackByRatingKey] at h
    cases hl : App.lookupInLang mp k with
    | some t' =>
      rw [hl] at h
      obtain ⟨rfl, rfl⟩ := Prod.mk.inj (Option.some.inj h)
      obtain ⟨⟨key, hkey⟩, hmatch⟩ := lookupInLang_some mp k _ hl
      exact ⟨⟨mp, List.mem_cons_self _ _, key, hkey⟩, hmatch⟩
    | none =>
      rw [hl] at h
      obtain ⟨⟨mp', hmp', key, hkey⟩, hmatch⟩ := ih h
      exact ⟨⟨mp', List.mem_cons_of_mem _ hmp', key, hkey⟩, hmatch⟩

theorem lookup_none_spec :
    ∀ (cache : List (String × List (String × Option App.ATrack))) (k : String),
      App.lookupPlexTrackByRatingKey cache k = none →
      ∀ lang mapping, (lang, mapping) ∈ cache →
        ∀ key t, (key, some t) ∈ mapping →
          ¬(t.ratingKey = some k ∨ k ∈ t.alternativeKeys.getD []) := by
  intro cache k
  induction cache with
  | nil => intro _ lang mapping hmem; cases hmem
  | cons entry rest ih =>
    intro h lang mapping hmem key t hkt hmatch
    obtain ⟨lang', mp⟩ := entry
    simp only [App.lookupPlexTrackByRatingKey] at h
    cases hl : App.lookupInLang mp k with
    | some t' => rw [hl] at h; cases h
    | none =>
      rw [hl] at h
      rcases List.mem_cons.mp hmem with heq | hrest
      · obtain ⟨rfl, rfl⟩ := Prod.mk.inj heq
        exact lookupInLang_ne_none_of_match mapping k key t hkt hmatch hl
      · exact ih h lang mapping hrest key t hkt hmatch

/-- C5: `lookupPlexTrackByRatingKey` returns a track exactly when some
loaded mapping holds a non-null entry whose `ratingKey` equals the scanned
key or whose `alternativeKeys` contain it (checked per language as a direct
map probe, then a `ratingKey` scan, then an `alternativeKeys` scan), and
returns null otherwise; any returned track itself satisfies the match. -/
theorem c5_rating_key_lookup :
    ∀ (cache : List (String × List (String × Option App.ATrack))) (k : String),
      (App.lookupPlexTrackByRatingKey cache k ≠ none ↔
        ∃ lang mapping, (lang, mapping) ∈ cache ∧
          ∃ key t, (key, some t) ∈ mapping ∧
            (t.ratingKey = some k ∨ k ∈ t.alternativeKeys.getD [])) ∧
      (∀ t lang, App.lookupPlexTrackByRatingKey cache k = some (t, lang) →
        (t.ratingKey = some k ∨ k ∈ t.alternativeKeys.getD []) ∧
        ∃ mapping, (lang, mapping) ∈ cache ∧ ∃ key, (key, some t) ∈ mapping) := by
  intro cache k
  constructor
  · constructor
    · intro hne
      cases hres : App.lookupPlexTrackByRatingKey cache k with
      | none => exact absurd hres hne
      | some p =>
        obtain ⟨t, lang⟩ := p
        obtain ⟨⟨mp, hmp, key, hkey⟩, hmatch⟩ := lookup_some_spec cache k t lang hres
        exact ⟨lang, mp, hmp, key, t, hkey, hmatch⟩
    · rintro ⟨lang, mp, hmp, key, t, hkey, hmatch⟩ hnone
      exact lookup_none_spec cache k hnone lang mp hmp key t hkey hmatch
  · intro t lang h
    obtain ⟨hex, hmatch⟩ := lookup_some_spec cache k t lang h
    exact ⟨hmatch, hex⟩

/-- C5 witness: the lookup theorem applied to a concrete cache in which the
scanned key 42 is found through the entry-scan fallback. -/
theorem c5_witness :
    (Ex.aTrack.ratingKey = some "42" ∨ "42" ∈ Ex.aTrack.alternativeKeys.getD []) ∧
    ∃ mapping, ("de", mapping) ∈ Ex.cache5 ∧ ∃ key, (key, some Ex.aTrack) ∈ mapping :=
  (c5_rating_key_lookup Ex.cache5 "42").2 Ex.aTrack "de" (by decide)

theorem scanTracks_inl (cA cT : String) (tgt : Option Int) :
    ∀ (ts : List Gen.PTrack) (st : Option Gen.MTrack × Option Nat) (m : Gen.MTrack),
      Gen.scanTracks cA cT tgt ts st = Sum.inl m →
      ∃ t ∈ ts, Gen.fuzzyMatch cA cT t = true ∧ Gen.yearDiffOf tgt t = some 0 ∧
        m = Gen.mkMatch t := by
  intro ts
  induction ts with
  | nil => intro st m h; cases h
  | cons t ts ih =>
    intro st m h
    obtain ⟨best, bestD⟩ := st
    simp only [Gen.scanTracks] at h
    by_cases hf : Gen.fuzzyMatch cA cT t = true
    · rw [if_pos hf] at h
      by_cases hyl : Gen.yearLt (Gen.yearDiffOf tgt t) bestD = true
      · rw [if_pos hyl] at h
        by_cases hd0 : Gen.yearDiffOf tgt t = some 0
        · rw [if_pos hd0] at h
          exact ⟨t, List.mem_cons_self _ _, hf, hd0, (Sum.inl.inj h).symm⟩
        · rw [if_neg hd0] at h
          obtain ⟨t', ht', hf', hd', hm⟩ := ih _ m h
          exact ⟨t', List.mem_cons_of_mem _ ht', hf', hd', hm⟩
      · rw [if_neg hyl] at h
        obtain ⟨t', ht', hf', hd', hm⟩ := ih _ m h
        exact ⟨t', List.mem_cons_of_mem _ ht', hf', hd', hm⟩
    · rw [if_neg hf] at h
      obtain ⟨t', ht', hf', hd', hm⟩ := ih _ m h
      exact ⟨t', List.mem_cons_of_mem _ ht', hf', hd', hm⟩

theorem scanTracks_inr_zero (cA cT : String) (tgt : Option Int) :
    ∀ (ts : List Gen.PTrack) (st st' : Option Gen.MTrack × Option Nat),
      Gen.scanTracks cA cT tgt ts st = Sum.inr st' → st'.2 = some 0 → st' = st := by
  intro ts
  induction ts with
  | nil => intro st st' h _; exact (Sum.inr.inj h).symm
  | cons t ts ih =>
    intro st st' h hz
    obtain ⟨best, bestD⟩ := st
    simp only [Gen.scanTracks] at h
    by_cases hf : Gen.fuzzyMatch cA cT t = true
    · rw [if_pos hf] at h
      by_cases hyl : Gen.yearLt (Gen.yearDiffOf tgt t) bestD = true
      · rw [if_pos hyl] at h
        by_cases hd0 : Gen.yearDiffOf tgt t = some 0
        · rw [if_pos hd0] at h; cases h
        · rw [if_neg hd0] at h
          have hst := ih _ _ h hz
          rw [hst] at hz
          exact absurd hz hd0
      · rw [if_neg hyl] at h
        exact ih _ _ h hz
    · rw [if_neg hf] at h
      exact ih _ _ h hz

theorem scanQueries_some (cA cT : String) (tgt : Option Int)
    (tracksOf : String → List Gen.PTrack) :
    ∀ (qs : List String) (st : Option Gen.MTrack × Option Nat) (m : Gen.MTrack),
      st.2 ≠ some 0 → Gen.scanQueries cA cT tgt tracksOf qs st = some m →
      ∃ q ∈ qs, ∃ t ∈ tracksOf q, Gen.fuzzyMatch cA cT t = true ∧
        Gen.yearDiffOf tgt t = some 0 ∧ m = Gen.mkMatch t := by
  intro qs
  induction qs with
  | nil =>
    intro st m hne h
    obtain ⟨best, bestD⟩ := st
    simp only [Gen.scanQueries] at h
    rw [decide_eq_false hne] at h
    simp at h
  | cons q qs ih =>
    intro st m hne h
    simp only [Gen.scanQueries] at h
    cases hscan : Gen.scanTracks cA cT tgt (tracksOf q) st with
    | inl m' =>
      rw [hscan] at h
      obtain rfl := Option.some.inj h
      obtain ⟨t, ht, hf, hd0, hm⟩ := scanTracks_inl cA cT tgt _ _ _ hscan
      exact ⟨q, List.mem_cons_self _ _, t, ht, hf, hd0, hm⟩
    | inr st' =>
      rw [hscan] at h
      have hne' : st'.2 ≠ some 0 := by
        intro hz
        have := scanTracks_inr_zero cA cT tgt _ _ _ hscan hz
        rw [this] at hz
        exact hne hz
      obtain ⟨q', hq', t, ht, hf, hd0, hm⟩ := ih st' m hne' h
      exact ⟨q', List.mem_cons_of_mem _ hq', t, ht, hf, hd0, hm⟩

theorem searchPlex_some_exact :
    ∀ (artist title : String) (tgt : Option Int) (tracksOf : String → List Gen.PTrack)
      (m : Gen.MTrack),
      Gen.searchPlex artist title tgt tracksOf = some m →
      ∃ q ∈ Gen.searchQueries artist title, ∃ t ∈ tracksOf q,
        Gen.fuzzyMatch (Gen.cleanArtist artist) (Gen.cleanTitle title) t = true ∧
        Gen.yearDiffOf tgt t = some 0 ∧ m = Gen.mkMatch t := by
  intro artist title tgt tracksOf m h
  exact scanQueries_some _ _ _ _ _ _ m (by simp) h

/-- C1: any non-null result of `searchPlex` is a fuzzy-matching candidate
from one of the three queries' responses, and its year difference from the
expected year is minimal over all fuzzy-matching candidates of all three
queries. -/
theorem c1_year_proximity :
    ∀ (artist title : String) (targetYear : Option Int)
      (tracksOf : String → List Gen.PTrack) (m : Gen.MTrack),
      Gen.searchPlex artist title targetYear tracksOf = some m →
      ∃ q ∈ Gen.searchQueries artist title, ∃ t ∈ tracksOf q,
        Gen.fuzzyMatch (Gen.cleanArtist artist) (Gen.cleanTitle title) t = true ∧
        m = Gen.mkMatch t ∧
        ∃ d, Gen.yearDiffOf targetYear t = some d ∧
          ∀ q' ∈ Gen.searchQueries artist title, ∀ t' ∈ tracksOf q',
            Gen.fuzzyMatch (Gen.cleanArtist artist) (Gen.cleanTitle title) t' = true →
            ∀ d', Gen.yearDiffOf targetYear t' = some d' → d ≤ d' := by
  intro artist title tgt tracksOf m h
  obtain ⟨q, hq, t, ht, hf, hd0, hm⟩ := searchPlex_some_exact artist title tgt tracksOf m h
  exact ⟨q, hq, t, ht, hf, hm, 0, hd0, fun q' _ t' _ _ d' _ => Nat.zero_le d'⟩

/-- C1 witness: a concrete search where the title query returns an exact
1974 match, so the theorem's hypothesis holds and yields the minimality
conclusion. -/
theorem c1_witness :
    ∃ q ∈ Gen.searchQueries "Abba" "Waterloo", ∃ t ∈ Ex.wTracksOf q,
      Gen.fuzzyMatch (Gen.cleanArtist "Abba") (Gen.cleanTitle "Waterloo") t = true ∧
      Gen.mkMatch Ex.wTrack = Gen.mkMatch t ∧
      ∃ d, Gen.yearDiffOf (some 1974) t = some d ∧
        ∀ q' ∈ Gen.searchQueries "Abba" "Waterloo", ∀ t' ∈ Ex.wTracksOf q',
          Gen.fuzzyMatch (Gen.cleanArtist "Abba") (Gen.cleanTitle "Waterloo") t' = true →
          ∀ d', Gen.yearDiffOf (some 1974) t' = some d' → d ≤ d' :=
  c1_year_proximity "Abba" "Waterloo" (some 1974) Ex.wTracksOf (Gen.mkMatch Ex.wTrack)
    (by decide)

/-- C9: `searchPlex` returns a non-null match only when the matched track's
year (0 when absent) equals the parsed expected year exactly; when every
fuzzy-matching candidate has a nonzero year difference, the result is null. -/
theorem c9_exact_year :
    ∀ (artist title : String) (targetYear : Option Int)
      (tracksOf : String → List Gen.PTrack),
      (∀ m, Gen.searchPlex artist title targetYear tracksOf = some m →
        ∃ ty, targetYear = some ty ∧ m.year.getD 0 = ty) ∧
      ((∀ q ∈ Gen.searchQueries artist title, ∀ t ∈ tracksOf q,
          Gen.fuzzyMatch (Gen.cleanArtist artist) (Gen.cleanTitle title) t = true →
          Gen.yearDiffOf targetYear t ≠ some 0) →
        Gen.searchPlex artist title targetYear tracksOf = none) := by
  intro artist title tgt tracksOf
  constructor
  · intro m h
    obtain ⟨q, hq, t, ht, hf, hd0, rfl⟩ := searchPlex_some_exact artist title tgt tracksOf m h
    cases tgt with
    | none => simp [Gen.yearDiffOf] at hd0
    | some ty =>
      refine ⟨ty, rfl, ?_⟩
      simp only [Gen.yearDiffOf, Option.map_some', Option.some.injEq] at hd0
      have hz : Gen.yearNumOf t - ty = 0 := Int.natAbs_eq_zero.mp hd0
      show (Gen.trackYearOf t).getD 0 = ty
      have : Gen.yearNumOf t = ty := by omega
      exact this
  · intro hall
    cases hres : Gen.searchPlex artist title tgt tracksOf with
    | none => rfl
    | some m =>
      obtain ⟨q, hq, t, ht, hf, hd0, _⟩ := searchPlex_some_exact artist title tgt tracksOf m hres
      exact absurd hd0 (hall q hq t ht hf)

/-- C9 witness: the exact-year conclusion at a concrete hit, and the null
result on a server returning no tracks at all. -/
theorem c9_witness :
    (∃ ty, (some 1974 : Option Int) = some ty ∧ (Gen.mkMatch Ex.wTrack).year.getD 0 = ty) ∧
    Gen.searchPlex "A" "B" (some 2000) (fun _ => []) = none :=
  ⟨(c9_exact_year "Abba" "Waterloo" (some 1974) Ex.wTracksOf).1 (Gen.mkMatch Ex.wTrack)
      (by decide),
   (c9_exact_year "A" "B" (some 2000) (fun _ => [])).2 (by decide)⟩

theorem scanTracks_filter (cA cT : String) (tgt : Option Int) :
    ∀ (ts : List Gen.PTrack) (st : Option Gen.MTrack × Option Nat),
      Gen.scanTracks cA cT tgt (ts.filter (Gen.fuzzyMatch cA cT)) st =
        Gen.scanTracks cA cT tgt ts st := by
  intro ts
  induction ts with
  | nil => intro st; rfl
  | cons t ts ih =>
    intro st
    obtain ⟨best, bestD⟩ := st
    rw [List.filter_cons]
    by_cases hf : Gen.fuzzyMatch cA cT t = true
    · rw [if_pos hf]
      simp only [Gen.scanTracks]
      rw [if_pos hf, if_pos hf]
      split_ifs with h1 h2
      · rfl
      · exact ih _
      · exact ih _
    · rw [if_neg hf]
      conv_rhs => rw [Gen.scanTracks]
      rw [if_neg hf]
      exact ih _

theorem scanQueries_filter (cA cT : String) (tgt : Option Int)
    (tracksOf : String → List Gen.PTrack) :
    ∀ (qs : List String) (st : Option Gen.MTrack × Option Nat),
      Gen.scanQueries cA cT tgt (fun q => (tracksOf q).filter (Gen.fuzzyMatch cA cT)) qs st =
        Gen.scanQueries cA cT tgt tracksOf qs st := by
  intro qs
  induction qs with
  | nil => intro st; rfl
  | cons q qs ih =>
    intro st
    simp only [Gen.scanQueries]
    rw [scanTracks_filter cA cT tgt (tracksOf q) st]
    cases h : Gen.scanTracks cA cT tgt (tracksOf q) st with
    | inl m => rfl
    | inr st' => exact ih st'

/-- C7: filtering every query's response down to the candidates satisfying
the claim's fuzzy criterion (lowercased mutual containment of titles, and
of `grandparentTitle || originalTitle || ''` against the cleaned artist)
leaves the result of `searchPlex` unchanged, and any non-null result is a
candidate satisfying that criterion: a candidate counts as a match exactly
when the criterion holds. -/
theorem c7_fuzzy_match :
    ∀ (artist title : String) (targetYear : Option Int)
      (tracksOf : String → List Gen.PTrack),
      Gen.searchPlex artist title targetYear
          (fun q => (tracksOf q).filter
            (Spec.claimFuzzy (Gen.cleanArtist artist) (Gen.cleanTitle title))) =
        Gen.searchPlex artist title targetYear tracksOf ∧
      (∀ m, Gen.searchPlex artist title targetYear tracksOf = some m →
        ∃ q ∈ Gen.searchQueries artist title, ∃ t ∈ tracksOf q,
          Spec.claimFuzzy (Gen.cleanArtist artist) (Gen.cleanTitle title) t = true ∧
          m = Gen.mkMatch t) := by
  intro artist title tgt tracksOf
  constructor
  · show Gen.searchPlex artist title tgt
        (fun q => (tracksOf q).filter
          (Gen.fuzzyMatch (Gen.cleanArtist artist) (Gen.cleanTitle title))) =
      Gen.searchPlex artist title tgt tracksOf
    unfold Gen.searchPlex
    exact scanQueries_filter _ _ tgt tracksOf (Gen.searchQueries artist title) (none, none)
  · intro m h
    obtain ⟨q, hq, t, ht, hf, _, hm⟩ := searchPlex_some_exact artist title tgt tracksOf m h
    exact ⟨q, hq, t, ht, hf, hm⟩

/-- C7 witness: the filter identity and the matched-candidate conclusion at
the concrete Waterloo search. -/
theorem c7_witness :
    Gen.searchPlex "Abba" "Waterloo" (some 1974)
        (fun q => (Ex.wTracksOf q).filter
          (Spec.claimFuzzy (Gen.cleanArtist "Abba") (Gen.cleanTitle "Waterloo"))) =
      Gen.searchPlex "Abba" "Waterloo" (some 1974) Ex.wTracksOf ∧
    ∃ q ∈ Gen.searchQueries "Abba" "Waterloo", ∃ t ∈ Ex.wTracksOf q,
      Spec.claimFuzzy (Gen.cleanArtist "Abba") (Gen.cleanTitle "Waterloo") t = true ∧
      Gen.mkMatch Ex.wTrack = Gen.mkMatch t :=
  ⟨(c7_fuzzy_match "Abba" "Waterloo" (some 1974) Ex.wTracksOf).1,
   (c7_fuzzy_match "Abba" "Waterloo" (some 1974) Ex.wTracksOf).2 (Gen.mkMatch Ex.wTrack)
      (by decide)⟩

theorem dropWhile_all_nil {α : Type} (p : α → Bool) :
    ∀ l : List α, (∀ x ∈ l, p x = true) → l.dropWhile p = [] := by
  intro l
  induction l with
  | nil => intro _; rfl
  | cons a l ih =>
    intro h
    rw [List.dropWhile_cons, if_pos (h a (List.mem_cons_self _ _))]
    exact ih (fun x hx => h x (List.mem_cons_of_mem _ hx))

theorem takeWhile_all {α : Type} (p : α → Bool) :
    ∀ l : List α, (∀ x ∈ l, p x = true) → l.takeWhile p = l := by
  intro l
  induction l with
  | nil => intro _; rfl
  | cons a l ih =>
    intro h
    rw [List.takeWhile_cons, if_pos (h a (List.mem_cons_self _ _))]
    rw [ih (fun x hx => h x (List.mem_cons_of_mem _ hx))]

theorem removeFeatRest_eq_cut :
    ∀ cs : List Char, (∀ c ∈ cs, isLineTerm c = false) →
      Gen.removeFeatRest cs = Spec.cutFeatOnward cs := by
  intro cs
  induction cs with
  | nil => intro _; rfl
  | cons c cs ih =>
    intro hall
    simp only [Gen.removeFeatRest, Spec.cutFeatOnward]
    by_cases hft : Gen.featAt (c :: cs) = true
    · rw [if_pos hft, if_pos hft]
      exact dropWhile_all_nil _ _ (fun x hx => by
        rw [hall x (List.mem_cons_of_mem _ (List.drop_subset _ _ hx))]; rfl)
    · rw [if_neg hft, if_neg hft]
      exact congrArg (c :: ·) (ih (fun x hx => hall x (List.mem_cons_of_mem _ hx)))

theorem removeCommaRest_eq_cut :
    ∀ cs : List Char, (∀ c ∈ cs, isLineTerm c = false) →
      Gen.removeCommaRest cs = Spec.cutCommaOnward cs := by
  intro cs
  induction cs with
  | nil => intro _; rfl
  | cons c cs ih =>
    intro hall
    simp only [Gen.removeCommaRest, Spec.cutCommaOnward]
    by_cases hcm : c = ','
    · rw [if_pos hcm, if_pos hcm]
      exact dropWhile_all_nil _ _ (fun x hx => by
        rw [hall x (List.mem_cons_of_mem _ hx)]; rfl)
    · rw [if_neg hcm, if_neg hcm]
      exact congrArg (c :: ·) (ih (fun x hx => hall x (List.mem_cons_of_mem _ hx)))

theorem removeDelimAux_eq_greedy (op cl : Char) :
    ∀ (fuel : Nat) (cs : List Char), (∀ c ∈ cs, isLineTerm c = false) →
      Gen.removeDelimAux op cl fuel cs = Spec.removeGreedyAux op cl fuel cs := by
  intro fuel
  induction fuel with
  | zero => intro cs _; rfl
  | succ fuel ih =>
    intro cs hall
    cases cs with
    | nil => rfl
    | cons c cs =>
      simp only [Gen.removeDelimAux, Spec.removeGreedyAux]
      by_cases hop : c = op
      · rw [if_pos hop, if_pos hop]
        have htw : cs.takeWhile (fun x => !(isLineTerm x)) = cs :=
          takeWhile_all _ cs (fun x hx => by
            rw [hall x (List.mem_cons_of_mem _ hx)]; rfl)
        rw [htw]
        cases hli : Gen.lastIdxOf cl cs with
        | some j =>
          exact ih (cs.drop (j + 1)) (fun x hx =>
            hall x (List.mem_cons_of_mem _ (List.drop_subset _ _ hx)))
        | none =>
          exact congrArg (c :: ·) (ih cs (fun x hx => hall x (List.mem_cons_of_mem _ hx)))
      · rw [if_neg hop, if_neg hop]
        exact congrArg (c :: ·) (ih cs (fun x hx => hall x (List.mem_cons_of_mem _ hx)))

theorem removeDelim_eq_greedy (op cl : Char) (cs : List Char)
    (h : ∀ c ∈ cs, isLineTerm c = false) :
    Gen.removeDelim op cl cs = Spec.removeGreedy op cl cs :=
  removeDelimAux_eq_greedy op cl cs.length cs h

theorem mem_cutFeatOnward : ∀ (cs : List Char) (x : Char),
    x ∈ Spec.cutFeatOnward cs → x ∈ cs := by
  intro cs
  induction cs with
  | nil => intro x h; cases h
  | cons c cs ih =>
    intro x h
    simp only [Spec.cutFeatOnward] at h
    by_cases hft : Gen.featAt (c :: cs) = true
    · rw [if_pos hft] at h; cases h
    · rw [if_neg hft] at h
      rcases List.mem_cons.mp h with rfl | hx
      · exact List.mem_cons_self _ _
      · exact List.mem_cons_of_mem _ (ih x hx)

theorem mem_removeGreedyAux (op cl : Char) : ∀ (fuel : Nat) (cs : List Char) (x : Char),
    x ∈ Spec.removeGreedyAux op cl fuel cs → x ∈ cs := by
  intro fuel
  induction fuel with
  | zero => intro cs x h; exact h
  | succ fuel ih =>
    intro cs x h
    cases cs with
    | nil => cases h
    | cons c cs =>
      simp only [Spec.removeGreedyAux] at h
      by_cases hop : c = op
      · rw [if_pos hop] at h
        cases hli : Gen.lastIdxOf cl cs with
        | some j =>
          rw [hli] at h
          exact List.mem_cons_of_mem _ (List.drop_subset _ _ (ih _ x h))
        | none =>
          rw [hli] at h
          rcases List.mem_cons.mp h with rfl | hx
          · exact List.mem_cons_self _ _
          · exact List.mem_cons_of_mem _ (ih _ x hx)
      · rw [if_neg hop] at h
        rcases List.mem_cons.mp h with rfl | hx
        · exact List.mem_cons_self _ _
        · exact List.mem_cons_of_mem _ (ih _ x hx)

/-- C6 counterexample: for artist "X" and title "Song (a) mid (b)" the code
removes the greedy span from the first `(` to the last `)` (queries built
from cleaned title "Song"), while the claim's per-segment removal would
yield "Song  mid", so the query list the claim describes differs from the
one the code builds. -/
theorem c6_counterexample :
    Gen.searchQueries "X" "Song (a) mid (b)" ≠ Spec.claimQueries "X" "Song (a) mid (b)" := by
  decide

/-- C6 (amended): for artist and title free of line terminators, the
cleaned artist is the input with everything from the first case-insensitive
`feat.` onward removed, then everything from the first comma onward
removed, then trimmed; the cleaned title is the input with each greedy
first-`(`-to-last-`)` span removed, likewise for brackets, then trimmed;
and exactly the three queries cleaned title, cleaned artist + " " + cleaned
title, cleaned artist are built, in that order. -/
theorem c6_amended :
    ∀ artist title : String,
      (∀ c ∈ artist.data, isLineTerm c = false) →
      (∀ c ∈ title.data, isLineTerm c = false) →
      Gen.cleanArtist artist = Spec.amendedCleanArtist artist ∧
      Gen.cleanTitle title = Spec.amendedCleanTitle title ∧
      Gen.searchQueries artist title = Spec.amendedQueries artist title := by
  intro artist title hart htit
  have ha : Gen.cleanArtist artist = Spec.amendedCleanArtist artist := by
    unfold Gen.cleanArtist Spec.amendedCleanArtist
    rw [removeFeatRest_eq_cut artist.data hart]
    rw [removeCommaRest_eq_cut (Spec.cutFeatOnward artist.data)
      (fun x hx => hart x (mem_cutFeatOnward _ x hx))]
  have ht : Gen.cleanTitle title = Spec.amendedCleanTitle title := by
    unfold Gen.cleanTitle Spec.amendedCleanTitle
    rw [removeDelim_eq_greedy '(' ')' title.data htit]
    rw [removeDelim_eq_greedy '[' ']' (Spec.removeGreedy '(' ')' title.data)
      (fun x hx => htit x (mem_removeGreedyAux '(' ')' _ _ x hx))]
  refine ⟨ha, ht, ?_⟩
  unfold Gen.searchQueries Spec.amendedQueries
  rw [ha, ht]

/-- C6 witness: the amended description at the concrete artist
"AC feat. DC, X" and title "Hi (a) b (c) [d]". -/
theorem c6_witness :
    Gen.cleanArtist "AC feat. DC, X" = Spec.amendedCleanArtist "AC feat. DC, X" ∧
    Gen.cleanTitle "Hi (a) b (c) [d]" = Spec.amendedCleanTitle "Hi (a) b (c) [d]" ∧
    Gen.searchQueries "AC feat. DC, X" "Hi (a) b (c) [d]" =
      Spec.amendedQueries "AC feat. DC, X" "Hi (a) b (c) [d]" :=
  c6_amended "AC feat. DC, X" "Hi (a) b (c) [d]" (by decide) (by decide)
